import Mathlib

/-
Verification development for the symbol synchronizer (symsync.c) of the
liquid-dsp repository.  Float arithmetic of the source is embedded as exact
rational arithmetic; the C int filterbank index is kept as an integer, and
the int versus unsigned comparison of the emit loop guard is modelled with
the same conversion that C performs.  The emit loop of symsync_step is a
while loop, modelled with a fuel bound: a run that returns none did not exit
the loop within the fuel.
-/

set_option maxRecDepth 8000

/-- Complex sample value with rational components, standing for the complex
float sample type of the source. -/
structure CQ where
  re : ℚ
  im : ℚ
deriving DecidableEq

instance : Add CQ := ⟨fun a b => ⟨a.re + b.re, a.im + b.im⟩⟩

instance : Mul CQ := ⟨fun a b => ⟨a.re * b.re - a.im * b.im, a.re * b.im + a.im * b.re⟩⟩

/-- Complex conjugate, as conjf of the source. -/
def CQ.conj (z : CQ) : CQ := ⟨z.re, -z.im⟩

/-- Scalar times complex sample, the coefficient against sample product. -/
def CQ.scale (c : ℚ) (z : CQ) : CQ := ⟨c * z.re, c * z.im⟩

/-- The zero sample. -/
def CQ.zero : CQ := ⟨0, 0⟩

/-- Modelled from the spec: the polyphase filterbank object.  The firpfb
source file is not among the sources; section 4.1 of the spec defines the
object.  A bank over prototype h with npfb sub-filters; sub-filter b has
taps h[n * npfb + b]; all sub-filters share one delay line w, newest sample
first. -/
structure Firpfb where
  npfb : ℕ
  h : List ℚ
  w : List CQ
deriving DecidableEq

/-- Modelled from the spec: bank construction with delay line length
(prototype length - 1) / npfb, matching the sub-filter length the
synchronizer stores for the prototypes it passes. -/
def Firpfb.create (npfb : ℕ) (h : List ℚ) : Firpfb :=
  ⟨npfb, h, List.replicate ((h.length - 1) / npfb) CQ.zero⟩

/-- Modelled from the spec: push shifts a sample into the shared delay
line, dropping the oldest sample. -/
def Firpfb.push (f : Firpfb) (x : CQ) : Firpfb :=
  { f with w := (x :: f.w).take f.w.length }

/-- Modelled from the spec: evaluate sub-filter b against the delay line,
the sum over n of h[n * npfb + b] times w[n].  The C code indexes the
coefficient array directly with the int b; the model uses b.toNat, which
agrees with the code whenever b is nonnegative. -/
def Firpfb.execute (f : Firpfb) (b : ℤ) : CQ :=
  (List.range f.w.length).foldl
    (fun acc n => acc + CQ.scale (f.h.getD (n * f.npfb + b.toNat) 0) (f.w.getD n CQ.zero))
    CQ.zero

/-- Modelled from the spec: zero the delay line. -/
def Firpfb.clear (f : Firpfb) : Firpfb :=
  { f with w := List.replicate f.w.length CQ.zero }

/-- Floor of a rational with nonnegative numerator, by integer division. -/
def ratFloorNN (x : ℚ) : ℤ := x.num / (x.den : ℤ)

/-- Round half away from zero, the behaviour of the C roundf function. -/
def roundAway (x : ℚ) : ℤ :=
  if 0 ≤ x then ratFloorNN (x + 1/2) else - ratFloorNN (-x + 1/2)

/-- The clamp of the timing error estimate to the interval from -1 to 1
(symsync.c lines 381 and 382). -/
def clip1 (x : ℚ) : ℚ := if 1 < x then 1 else if x < -1 then -1 else x

/-- Write v at offset n of the output buffer.  The C code writes through a
pointer at offset n; a second write at the same offset overwrites the slot,
and a write one past the end appends. -/
def writeAt (buf : List CQ) (n : ℕ) (v : CQ) : List CQ :=
  if n < buf.length then buf.set n v else buf ++ [v]

/-- The synchronizer state: struct symsync_s of symsync.c.  The PLL fields
and the debug windows are compiled out (SYMSYNC_USE_PLL = 0 and
DEBUG_SYMSYNC = 0) and are omitted.  The field b is the C int filterbank
index; float fields are kept as exact rationals. -/
structure Symsync where
  h_len : ℕ
  k : ℕ
  k_out : ℕ
  decim_counter : ℕ
  is_locked : Bool
  r : ℚ
  b : ℤ
  del : ℚ
  tau : ℚ
  bf : ℚ
  alpha : ℚ
  beta : ℚ
  q : ℚ
  q_hat : ℚ
  q_prime : ℚ
  npfb : ℕ
  mf : Firpfb
  dmf : Firpfb
deriving DecidableEq

/-- symsync_advance_internal_loop (symsync.c lines 370 to 402), with the
PLL branch compiled out: the timing error is the real part of conj(mf)
times dmf, clamped; the loop filter retains beta of the new estimate and
alpha of the old one; del becomes k / k_out plus the filtered estimate. -/
def Symsync.advanceInternalLoop (s : Symsync) (u v : CQ) : Symsync :=
  let q1 := clip1 ((CQ.conj u * v).re)
  let qh := q1 * s.beta + s.q_prime * s.alpha
  { s with q := q1, q_hat := qh, q_prime := qh,
           del := (s.k : ℚ) / (s.k_out : ℚ) + qh }

/-- The phase advance at the bottom of the emit loop (symsync.c lines 459
to 462): tau grows by del, bf is tau times npfb and b is bf rounded. -/
def Symsync.advancePhase (s : Symsync) : Symsync :=
  let tau := s.tau + s.del
  let bf := tau * (s.npfb : ℚ)
  { s with tau := tau, bf := bf, b := roundAway bf }

/-- The emit loop guard (symsync.c line 420).  The C comparison b < npfb
converts the int b to unsigned int, so a negative b compares large and
exits the loop; the model applies the same conversion modulo 2 ^ 32. -/
def Symsync.stepGuard (s : Symsync) : Prop := (s.b % 4294967296).toNat < s.npfb

instance (s : Symsync) : Decidable s.stepGuard :=
  inferInstanceAs (Decidable (_ < _))

/-- The two pushes at the top of symsync_step (symsync.c lines 410 and
411): the sample enters both banks. -/
def Symsync.pushBoth (s : Symsync) (x : CQ) : Symsync :=
  { s with mf := s.mf.push x, dmf := s.dmf.push x }

/-- The single symbol wrap after the emit loop (symsync.c lines 466 to
468). -/
def Symsync.wrap (s : Symsync) : Symsync :=
  { s with tau := s.tau - 1, bf := s.bf - (s.npfb : ℚ), b := s.b - (s.npfb : ℤ) }

/-- Carrier of the emit loop: synchronizer state, output buffer, count n of
outputs written, and the trace ex of every bank index passed to a
sub-filter evaluation. -/
structure LoopSt where
  st : Symsync
  buf : List CQ
  n : ℕ
  ex : List ℤ
deriving DecidableEq

/-- One pass of the emit loop body (symsync.c lines 420 to 464).  The
matched filter is evaluated at b and the scaled output written at offset n.
When the decimation counter equals k_out it is reset; if the loop is locked
the C continue statement returns to the guard with no counter increment and
no phase advance, otherwise the derivative bank is evaluated at b and the
internal loop advanced.  All fallthrough paths increment the counter and
advance the phase. -/
def loopIter (t : LoopSt) : LoopSt :=
  if t.st.decim_counter = t.st.k_out then
    if t.st.is_locked then
      ⟨{ t.st with decim_counter := 0 },
        writeAt t.buf t.n (CQ.scale (1 / (t.st.k : ℚ)) (t.st.mf.execute t.st.b)),
        t.n, t.ex ++ [t.st.b]⟩
    else
      ⟨Symsync.advancePhase
          { Symsync.advanceInternalLoop { t.st with decim_counter := 0 }
              (t.st.mf.execute t.st.b) (t.st.dmf.execute t.st.b) with
            decim_counter :=
              (Symsync.advanceInternalLoop { t.st with decim_counter := 0 }
                (t.st.mf.execute t.st.b) (t.st.dmf.execute t.st.b)).decim_counter + 1 },
        writeAt t.buf t.n (CQ.scale (1 / (t.st.k : ℚ)) (t.st.mf.execute t.st.b)),
        t.n + 1, t.ex ++ [t.st.b, t.st.b]⟩
  else
    ⟨Symsync.advancePhase { t.st with decim_counter := t.st.decim_counter + 1 },
      writeAt t.buf t.n (CQ.scale (1 / (t.st.k : ℚ)) (t.st.mf.execute t.st.b)),
      t.n + 1, t.ex ++ [t.st.b]⟩

/-- The emit loop as a fuel bounded iteration of loopIter under the guard;
none models a loop that does not exit within the fuel. -/
def stepLoop : ℕ → LoopSt → Option LoopSt
  | 0, t => if t.st.stepGuard then none else some t
  | fuel + 1, t => if t.st.stepGuard then stepLoop fuel (loopIter t) else some t

/-- Result of one step call: final state, output buffer, number of outputs
written, and the trace of sub-filter evaluation indices. -/
structure StepRes where
  st : Symsync
  ys : List CQ
  nw : ℕ
  ex : List ℤ
deriving DecidableEq

/-- symsync_step (symsync.c lines 404 to 471): push the sample into both
banks, run the emit loop, then apply the symbol wrap once. -/
def Symsync.step (fuel : ℕ) (s : Symsync) (x : CQ) : Option StepRes :=
  (stepLoop fuel ⟨s.pushBoth x, [], 0, []⟩).map fun t => ⟨t.st.wrap, t.buf, t.n, t.ex⟩

/-- symsync_set_lf_bw (symsync.c lines 300 to 319); none models the fatal
validation exit for a bandwidth outside the unit interval. -/
def Symsync.setLfBw (s : Symsync) (bt : ℚ) : Option Symsync :=
  if bt < 0 ∨ 1 < bt then none
  else some { s with alpha := 1 - bt, beta := (11/50 : ℚ) * bt }

/-- symsync_set_output_rate (symsync.c lines 324 to 338); none models the
fatal validation exit for a zero output rate.  The rate r becomes k_out
over k and del becomes the reciprocal of r. -/
def Symsync.setOutputRate (s : Symsync) (ko : ℕ) : Option Symsync :=
  if ko = 0 then none
  else some { s with k_out := ko, r := (ko : ℚ) / (s.k : ℚ),
                     del := 1 / ((ko : ℚ) / (s.k : ℚ)) }

/-- symsync_reset (symsync.c lines 256 to 270).  The code clears the delay
line of the matched bank mf only; the derivative bank dmf keeps its delay
line.  The loop state is zeroed; del, the rate and the lock flag are kept. -/
def Symsync.reset (s : Symsync) : Symsync :=
  { s with mf := s.mf.clear, b := 0, tau := 0, bf := 0,
           q := 0, q_hat := 0, q_prime := 0, decim_counter := 0 }

/-- symsync_lock (symsync.c lines 277 to 280). -/
def Symsync.lock (s : Symsync) : Symsync := { s with is_locked := true }

/-- symsync_unlock (symsync.c lines 283 to 286). -/
def Symsync.unlock (s : Symsync) : Symsync := { s with is_locked := false }

/-- The derivative prototype computed in symsync_create (symsync.c lines
137 to 151): a centered difference with circular boundaries, the i = 0 case
checked first, each tap scaled by npfb / 16. -/
def dhCoeffs (npfb : ℕ) (h : List ℚ) : List ℚ :=
  (List.range h.length).map fun i =>
    (if i = 0 then h.getD 1 0 - h.getD (h.length - 1) 0
     else if i = h.length - 1 then h.getD 0 0 - h.getD (i - 1) 0
     else h.getD (i + 1) 0 - h.getD (i - 1) 0) * ((npfb : ℚ) / 16)

/-- symsync_create (symsync.c lines 105 to 181).  none models the fatal
validation exits (k below 2, empty prototype, zero bank count).  The record
collects the assignments the constructor performs: the stored sub-filter
length, the two banks over the prototype and its derivative, and the calls
set_output_rate(1) (k_out = 1, r = 1 / k, del = 1 / r), clear (zeroed loop
state), set_lf_bw(0.01) (alpha = 1 - 0.01, beta = 0.22 times 0.01) and
unlock. -/
def Symsync.create (k npfb : ℕ) (h : List ℚ) : Option Symsync :=
  if k < 2 then none
  else if h.length = 0 then none
  else if npfb = 0 then none
  else some
    { h_len := (h.length - 1) / npfb
      k := k
      k_out := 1
      decim_counter := 0
      is_locked := false
      r := (1 : ℚ) / (k : ℚ)
      b := 0
      del := 1 / ((1 : ℚ) / (k : ℚ))
      tau := 0
      bf := 0
      alpha := 1 - 1/100
      beta := (11/50 : ℚ) * (1/100)
      q := 0
      q_hat := 0
      q_prime := 0
      npfb := npfb
      mf := Firpfb.create npfb h
      dmf := Firpfb.create npfb (dhCoeffs npfb h) }

/-- symsync_create_rnyquist (symsync.c lines 189 to 222).  Modelled from
the spec: design_rnyquist_filter is the external prototype designer, whose
source is not among the sources; it is taken as a parameter giving the
designed coefficient array, of length 2 npfb k m + 1 as the code allocates.
The filter type argument only selects the design and is dropped.  After its
own validation the code delegates to symsync_create, which rejects a zero
bank count. -/
def Symsync.createRnyquist (k m : ℕ) (beta : ℚ) (npfb : ℕ) (design : ℕ → ℚ) :
    Option Symsync :=
  if k < 2 then none
  else if m = 0 then none
  else if beta < 0 ∨ 1 < beta then none
  else Symsync.create k npfb (List.ofFn fun i : Fin (2 * npfb * k * m + 1) => design i)

/-- A public operation on a synchronizer handle.  step and execute carry a
fuel bound for the emit loop. -/
inductive SyncOp where
  | step (x : CQ) (fuel : ℕ)
  | execute (xs : List CQ) (fuel : ℕ)
  | setOutputRate (ko : ℕ)
  | setLfBw (bt : ℚ)
  | lock
  | unlock
  | reset
deriving DecidableEq

/-- Interpret one public operation; none models a fatal validation exit or
fuel exhaustion.  symsync_execute (symsync.c lines 351 to 364) iterates
symsync_step over the input array. -/
def runOp (s : Symsync) : SyncOp → Option Symsync
  | .step x fuel => (Symsync.step fuel s x).map StepRes.st
  | .execute xs fuel => xs.foldlM (fun s1 x => (Symsync.step fuel s1 x).map StepRes.st) s
  | .setOutputRate ko => s.setOutputRate ko
  | .setLfBw bt => s.setLfBw bt
  | .lock => some s.lock
  | .unlock => some s.unlock
  | .reset => some s.reset

/-- Interpret a sequence of public operations from a given state. -/
def runOps (s : Symsync) (ops : List SyncOp) : Option Symsync :=
  ops.foldlM runOp s

/-- Bounded output rate side condition: a set_output_rate call keeps k_out
at most 4 k, so that the nominal step k / k_out stays above the clamp bound
0.22.  All other operations are unconstrained. -/
def SyncOp.rateBounded (k : ℕ) : SyncOp → Bool
  | .setOutputRate ko => decide (ko ≤ 4 * k)
  | _ => true

/-- Loop filter invariant: the filtered error magnitudes stay at or below
0.22, and the loop coefficients come from a bandwidth in the unit interval
(alpha = 1 - bt, beta = 0.22 bt). -/
def LoopInv (s : Symsync) : Prop :=
  |s.q_hat| ≤ 11/50 ∧ |s.q_prime| ≤ 11/50 ∧ 0 ≤ s.alpha ∧ s.alpha ≤ 1 ∧
    s.beta = (11/50) * (1 - s.alpha)

/-- Step size invariant under bounded output rates: k at least 2, k_out in
[1, 4 k], and del at least k / k_out - 0.22. -/
def DelInv (s : Symsync) : Prop :=
  2 ≤ s.k ∧ 1 ≤ s.k_out ∧ s.k_out ≤ 4 * s.k ∧
    (s.k : ℚ) / (s.k_out : ℚ) - 11/50 ≤ s.del

/-- Concrete prototype for the worked runs: derivative taps 1, -1/16 and
-15/16 after scaling. -/
def hEx : List ℚ := [1, 16, 0]

/-- A throwaway state used only as the default of Option.getD. -/
def sJunk : Symsync :=
  { h_len := 0, k := 0, k_out := 0, decim_counter := 0, is_locked := false,
    r := 0, b := 0, del := 0, tau := 0, bf := 0, alpha := 0, beta := 0,
    q := 0, q_hat := 0, q_prime := 0, npfb := 0, mf := ⟨0, [], []⟩, dmf := ⟨0, [], []⟩ }

/-- A throwaway step result used only as the default of Option.getD. -/
def rJunk : StepRes := ⟨sJunk, [], 0, []⟩

/-- The synchronizer built by create(k = 2, npfb = 1, hEx). -/
def s0Ex : Symsync := (Symsync.create 2 1 hEx).getD sJunk

/-- The result of one step on s0Ex with the sample 1. -/
def rEx : StepRes := (Symsync.step 5 s0Ex ⟨1, 0⟩).getD rJunk

/-- Operation sequence driving del negative: full bandwidth, output rate 10
from input rate 2, then three samples whose error estimate clamps to -1. -/
def opsNeg : List SyncOp :=
  [SyncOp.setLfBw 1, SyncOp.setOutputRate 10,
   SyncOp.step ⟨1, 0⟩ 50, SyncOp.step ⟨1, 0⟩ 50, SyncOp.step ⟨-1, 0⟩ 50]

/-- The state reached by opsNeg from s0Ex. -/
def sNegEx : Symsync := (runOps s0Ex opsNeg).getD sJunk

/-- Operation sequence with a bounded output rate change. -/
def opsRateEx : List SyncOp := [SyncOp.setOutputRate 2, SyncOp.step ⟨1, 0⟩ 9]

/-- The state reached by opsRateEx from s0Ex. -/
def sRateEx : Symsync := (runOps s0Ex opsRateEx).getD sJunk

/-- s0Ex after lock. -/
def sLock0Ex : Symsync := s0Ex.lock

/-- A short all-step operation sequence. -/
def opsStepEx : List SyncOp := [SyncOp.step ⟨1, 0⟩ 5]

/-- The state reached by opsStepEx from the locked state. -/
def sLockEx : Symsync := (runOps sLock0Ex opsStepEx).getD sJunk

/-- The state reached by opsStepEx from s0Ex. -/
def sQEx : Symsync := (runOps s0Ex opsStepEx).getD sJunk

/-- The if chain of the clamp equals the clamp written with min and max. -/
theorem clip1_eq (x : ℚ) : clip1 x = max (-1) (min 1 x) := by
  unfold clip1
  split_ifs with h1 h2
  · rw [min_eq_left h1.le, max_eq_right (by norm_num : (-1 : ℚ) ≤ 1)]
  · rw [min_eq_right (by linarith : x ≤ 1), max_eq_left (by linarith : x ≤ -1)]
  · rw [min_eq_right (by linarith : x ≤ 1), max_eq_right (by linarith : (-1 : ℚ) ≤ x)]

/-- The clamped error has magnitude at most one. -/
theorem clip1_abs_le_one (x : ℚ) : |clip1 x| ≤ 1 := by
  unfold clip1
  split_ifs with h1 h2
  · norm_num
  · norm_num
  · rw [abs_le]; exact ⟨by linarith, by linarith⟩

/-- C5: advance_internal_loop sets q to the real part of conj(u) times v
clamped to [-1, 1], sets the filtered estimate to beta q + alpha times the
old buffered estimate, buffers it, sets del to k / k_out plus the filtered
estimate, and modifies no other state. -/
theorem symsync_advance_internal_loop_spec (s : Symsync) (u v : CQ) :
    (s.advanceInternalLoop u v).q = max (-1) (min 1 ((CQ.conj u * v).re)) ∧
    (s.advanceInternalLoop u v).q_hat =
      s.beta * (s.advanceInternalLoop u v).q + s.alpha * s.q_prime ∧
    (s.advanceInternalLoop u v).q_prime = (s.advanceInternalLoop u v).q_hat ∧
    (s.advanceInternalLoop u v).del =
      (s.k : ℚ) / (s.k_out : ℚ) + (s.advanceInternalLoop u v).q_hat ∧
    (s.advanceInternalLoop u v).tau = s.tau ∧
    (s.advanceInternalLoop u v).bf = s.bf ∧
    (s.advanceInternalLoop u v).b = s.b ∧
    (s.advanceInternalLoop u v).k = s.k ∧
    (s.advanceInternalLoop u v).k_out = s.k_out ∧
    (s.advanceInternalLoop u v).h_len = s.h_len ∧
    (s.advanceInternalLoop u v).npfb = s.npfb ∧
    (s.advanceInternalLoop u v).alpha = s.alpha ∧
    (s.advanceInternalLoop u v).beta = s.beta ∧
    (s.advanceInternalLoop u v).r = s.r ∧
    (s.advanceInternalLoop u v).decim_counter = s.decim_counter ∧
    (s.advanceInternalLoop u v).is_locked = s.is_locked ∧
    (s.advanceInternalLoop u v).mf = s.mf ∧
    (s.advanceInternalLoop u v).dmf = s.dmf := by
  unfold Symsync.advanceInternalLoop
  refine ⟨clip1_eq _, by ring, rfl, rfl, rfl, rfl, rfl, rfl, rfl, rfl, rfl, rfl, rfl,
    rfl, rfl, rfl, rfl, rfl⟩

/-- C8: create fails exactly on k < 2, an empty prototype, or a zero bank
count; create_rnyquist fails exactly on k < 2, m = 0, a rolloff outside
[0, 1], or a zero bank count (the last caught by the nested create); with
valid arguments both return a handle. -/
theorem symsync_create_validation (k npfb m : ℕ) (h : List ℚ) (beta : ℚ)
    (design : ℕ → ℚ) :
    (Symsync.create k npfb h = none ↔ (k < 2 ∨ h.length = 0 ∨ npfb = 0)) ∧
    (Symsync.createRnyquist k m beta npfb design = none ↔
      (k < 2 ∨ m = 0 ∨ beta < 0 ∨ 1 < beta ∨ npfb = 0)) := by
  constructor
  · unfold Symsync.create
    split_ifs with h1 h2 h3 <;> simp_all
  · unfold Symsync.createRnyquist Symsync.create
    split_ifs with h1 h2 h3 h4 h5 _h6 <;> simp_all <;> tauto

/-- C9 counterexample: create(k = 2, N = 4, h of length 3) succeeds and the
stored sub-filter length is (3 - 1) / 4 = 0, not strictly positive. -/
theorem symsync_hlen_zero_example :
    ∃ s : Symsync, Symsync.create 2 4 ([1, 1, 1] : List ℚ) = some s ∧ ¬ 0 < s.h_len :=
  ⟨(Symsync.create 2 4 ([1, 1, 1] : List ℚ)).getD sJunk, by rfl, by decide⟩

/-- C9 amended: after every successful create the stored sub-filter length
equals (prototype length - 1) / N with floor division, and it is strictly
positive whenever the prototype is longer than N. -/
theorem symsync_hlen_formula (k npfb : ℕ) (h : List ℚ) (s : Symsync)
    (hc : Symsync.create k npfb h = some s) :
    s.h_len = (h.length - 1) / npfb ∧ (npfb < h.length → 0 < s.h_len) := by
  unfold Symsync.create at hc
  split_ifs at hc with h1 h2 h3
  injection hc with hc
  subst hc
  refine ⟨rfl, fun hl => ?_⟩
  have hn : 0 < npfb := Nat.pos_of_ne_zero h3
  exact Nat.div_pos (by omega) hn

/-- C3 counterexample: from create(k = 2, N = 1, hEx) the valid public
calls set_lf_bw(1), set_output_rate(10) and three steps reach a state whose
del is -1/50: the loop update k / k_out + q_hat with q clamped at -1 makes
the step size nonpositive once k / k_out drops below 0.22. -/
theorem symsync_del_nonpositive_reachable :
    ∃ s : Symsync, runOps s0Ex opsNeg = some s ∧ s.del ≤ 0 :=
  ⟨sNegEx, by with_unfolding_all rfl, by with_unfolding_all decide⟩

/-- C4: the code contradicts the intended lock-step of the two banks: after
create(2, 1, hEx), one step on the sample 1 and a reset, the matched bank
delay line is cleared to zeros while the derivative bank still holds the
pushed sample, so the two delay lines differ (symsync_reset clears mf
only). -/
theorem symsync_reset_bank_mismatch :
    ∃ s : Symsync,
      runOps s0Ex [SyncOp.step ⟨1, 0⟩ 5, SyncOp.reset] = some s ∧ s.mf.w ≠ s.dmf.w :=
  ⟨(runOps s0Ex [SyncOp.step ⟨1, 0⟩ 5, SyncOp.reset]).getD sJunk,
    by with_unfolding_all rfl, by with_unfolding_all decide⟩

/-- Preservation of a predicate along the fuel bounded emit loop. -/
theorem stepLoop_pres (P : LoopSt → Prop)
    (hP : ∀ t, t.st.stepGuard → P t → P (loopIter t)) :
    ∀ fuel t t2, stepLoop fuel t = some t2 → P t → P t2 := by
  intro fuel
  induction fuel with
  | zero =>
    intro t t2 h hp
    by_cases hg : t.st.stepGuard
    · rw [stepLoop, if_pos hg] at h; exact Option.noConfusion h
    · rw [stepLoop, if_neg hg] at h; injection h with h2; subst h2; exact hp
  | succ f ih =>
    intro t t2 h hp
    by_cases hg : t.st.stepGuard
    · rw [stepLoop, if_pos hg] at h
      exact ih _ _ h (hP t hg hp)
    · rw [stepLoop, if_neg hg] at h; injection h with h2; subst h2; exact hp

/-- Preservation of a state predicate across one step call, given that the
loop body, the pushes and the wrap preserve it. -/
theorem step_pres (P : Symsync → Prop)
    (hiter : ∀ t : LoopSt, t.st.stepGuard → P t.st → P (loopIter t).st)
    (hpush : ∀ s x, P s → P (s.pushBoth x))
    (hwrap : ∀ s, P s → P s.wrap) :
    ∀ fuel s x r, Symsync.step fuel s x = some r → P s → P r.st := by
  intro fuel s x r h hp
  unfold Symsync.step at h
  cases hsl : stepLoop fuel ⟨s.pushBoth x, [], 0, []⟩ with
  | none => rw [hsl] at h; exact Option.noConfusion h
  | some t =>
    rw [hsl] at h
    injection h with h2
    subst h2
    exact hwrap _ (stepLoop_pres (fun t2 => P t2.st) hiter fuel _ t hsl (hpush s x hp))

/-- Preservation of a state predicate along a monadic fold over Option. -/
theorem foldlM_pres {α : Type} (P : Symsync → Prop) (f : Symsync → α → Option Symsync)
    (l : List α) (hf : ∀ s a s2, a ∈ l → f s a = some s2 → P s → P s2) :
    ∀ s s2, l.foldlM f s = some s2 → P s → P s2 := by
  induction l with
  | nil =>
    intro s s2 h hp
    simp only [List.foldlM_nil] at h
    injection h with h2; subst h2; exact hp
  | cons a l ih =>
    intro s s2 h hp
    simp only [List.foldlM_cons] at h
    cases hfa : f s a with
    | none => rw [hfa] at h; exact Option.noConfusion h
    | some s1 =>
      rw [hfa] at h
      simp only [Option.bind_eq_bind, Option.some_bind] at h
      exact ih (fun s3 a2 s4 ha => hf s3 a2 s4 (List.mem_cons_of_mem _ ha)) s1 s2 h
        (hf s a s1 (List.mem_cons_self a l) hfa hp)

/-- The emit loop body never changes the bank count, the rates, the lock
flag, the loop coefficients or the two banks. -/
theorem loopIter_frame (t : LoopSt) :
    (loopIter t).st.npfb = t.st.npfb ∧ (loopIter t).st.k = t.st.k ∧
    (loopIter t).st.k_out = t.st.k_out ∧ (loopIter t).st.is_locked = t.st.is_locked ∧
    (loopIter t).st.alpha = t.st.alpha ∧ (loopIter t).st.beta = t.st.beta ∧
    (loopIter t).st.mf = t.st.mf ∧ (loopIter t).st.dmf = t.st.dmf := by
  unfold loopIter
  split_ifs <;> simp [Symsync.advanceInternalLoop, Symsync.advancePhase]

/-- With the lock flag set the emit loop body leaves the whole loop filter
state and the step size unchanged. -/
theorem loopIter_locked (t : LoopSt) (hl : t.st.is_locked = true) :
    (loopIter t).st.q = t.st.q ∧ (loopIter t).st.q_hat = t.st.q_hat ∧
    (loopIter t).st.q_prime = t.st.q_prime ∧ (loopIter t).st.del = t.st.del := by
  unfold loopIter
  split_ifs with h1 _h2 <;> simp_all [Symsync.advancePhase]

/-- Every index the emit loop body appends to the evaluation trace is the
current bank index. -/
theorem loopIter_ex_cases (t : LoopSt) (i : ℤ) (hi : i ∈ (loopIter t).ex) :
    i ∈ t.ex ∨ i = t.st.b := by
  unfold loopIter at hi
  split_ifs at hi <;> simp [List.mem_append] at hi <;> tauto

/-- Along the emit loop every traced evaluation index passed the guard:
its value reduced modulo 2 ^ 32 as unsigned is below the bank count. -/
theorem stepLoop_ex_guard (N : ℕ) :
    ∀ fuel t t2, stepLoop fuel t = some t2 → t.st.npfb = N →
      (∀ i ∈ t.ex, (i % 4294967296).toNat < N) →
      ∀ i ∈ t2.ex, (i % 4294967296).toNat < N := by
  intro fuel t t2 h hN hex
  have hmain := stepLoop_pres
    (fun t3 => t3.st.npfb = N ∧ ∀ i ∈ t3.ex, (i % 4294967296).toNat < N)
    (fun t3 hg hp => by
      refine ⟨(loopIter_frame t3).1.trans hp.1, fun i hi => ?_⟩
      rcases loopIter_ex_cases t3 i hi with hc | hc
      · exact hp.2 i hc
      · subst hc
        have hg2 := hg
        unfold Symsync.stepGuard at hg2
        rw [hp.1] at hg2
        exact hg2)
    fuel t t2 h ⟨hN, hex⟩
  exact hmain.2

/-- C1: whenever step evaluates a sub-filter of the matched or derivative
bank, the index b satisfies 0 <= b < N.  The trace ex of a step run records
every index passed to a bank evaluation; each recorded index passed the C
guard b < npfb, whose int to unsigned conversion rejects every negative b
as well as every b at or above npfb, for any b in the int range and any
bank count at most 2 ^ 31. -/
theorem symsync_step_bank_index_bounds (fuel : ℕ) (s : Symsync) (x : CQ) (r : StepRes)
    (hstep : Symsync.step fuel s x = some r) (hN : s.npfb ≤ 2147483648)
    (i : ℤ) (hi : i ∈ r.ex) (hlo : -2147483648 ≤ i) (hhi : i < 2147483648) :
    0 ≤ i ∧ i < (s.npfb : ℤ) := by
  unfold Symsync.step at hstep
  cases hsl : stepLoop fuel ⟨s.pushBoth x, [], 0, []⟩ with
  | none => rw [hsl] at hstep; exact Option.noConfusion hstep
  | some t =>
    rw [hsl] at hstep
    injection hstep with h2
    subst h2
    have hb := stepLoop_ex_guard s.npfb fuel _ t hsl (by simp [Symsync.pushBoth])
      (by simp) i hi
    omega

/-- C1 witness: the step on the worked example evaluates the bank at the
single index 0, and the theorem yields 0 <= 0 < npfb there. -/
theorem symsync_step_bank_index_bounds_w : 0 ≤ (0 : ℤ) ∧ (0 : ℤ) < (s0Ex.npfb : ℤ) :=
  symsync_step_bank_index_bounds 5 s0Ex ⟨1, 0⟩ rEx (by with_unfolding_all rfl)
    (by with_unfolding_all decide) 0 (by with_unfolding_all decide) (by decide) (by decide)

/-- C2: every completed step applies the symbol wrap exactly once at the
exit of the emit loop: relative to the loop exit state, tau drops by one,
bf and b drop by npfb, and nothing else changes; the output buffer and the
output count are those of the loop. -/
theorem symsync_step_single_wrap (fuel : ℕ) (s : Symsync) (x : CQ) (r : StepRes)
    (h : Symsync.step fuel s x = some r) :
    ∃ t : LoopSt, stepLoop fuel ⟨s.pushBoth x, [], 0, []⟩ = some t ∧
      r.st.tau = t.st.tau - 1 ∧ r.st.bf = t.st.bf - (t.st.npfb : ℚ) ∧
      r.st.b = t.st.b - (t.st.npfb : ℤ) ∧ r.st.q = t.st.q ∧ r.st.q_hat = t.st.q_hat ∧
      r.st.q_prime = t.st.q_prime ∧ r.st.del = t.st.del ∧
      r.st.decim_counter = t.st.decim_counter ∧ r.st.is_locked = t.st.is_locked ∧
      r.st.mf = t.st.mf ∧ r.st.dmf = t.st.dmf ∧ r.st.npfb = t.st.npfb ∧
      r.st.k = t.st.k ∧ r.st.k_out = t.st.k_out ∧
      r.ys = t.buf ∧ r.nw = t.n := by
  unfold Symsync.step at h
  cases hsl : stepLoop fuel ⟨s.pushBoth x, [], 0, []⟩ with
  | none => rw [hsl] at h; exact Option.noConfusion h
  | some t =>
    rw [hsl] at h
    injection h with h2
    subst h2
    exact ⟨t, rfl, by simp [Symsync.wrap]⟩

/-- C2 witness: the wrap equations instantiated on the worked example. -/
theorem symsync_step_single_wrap_w :
    ∃ t : LoopSt, stepLoop 5 ⟨s0Ex.pushBoth ⟨1, 0⟩, [], 0, []⟩ = some t ∧
      rEx.st.tau = t.st.tau - 1 ∧ rEx.st.bf = t.st.bf - (t.st.npfb : ℚ) ∧
      rEx.st.b = t.st.b - (t.st.npfb : ℤ) ∧ rEx.st.q = t.st.q ∧
      rEx.st.q_hat = t.st.q_hat ∧ rEx.st.q_prime = t.st.q_prime ∧
      rEx.st.del = t.st.del ∧ rEx.st.decim_counter = t.st.decim_counter ∧
      rEx.st.is_locked = t.st.is_locked ∧ rEx.st.mf = t.st.mf ∧
      rEx.st.dmf = t.st.dmf ∧ rEx.st.npfb = t.st.npfb ∧
      rEx.st.k = t.st.k ∧ rEx.st.k_out = t.st.k_out ∧
      rEx.ys = t.buf ∧ rEx.nw = t.n :=
  symsync_step_single_wrap 5 s0Ex ⟨1, 0⟩ rEx (by with_unfolding_all rfl)

/-- The internal loop advance keeps the loop filter invariant: with the
error clamped to magnitude one and coefficients from a unit bandwidth, the
new filtered estimate has magnitude at most 0.22. -/
theorem advance_LoopInv (s : Symsync) (u v : CQ) (hs : LoopInv s) :
    LoopInv (s.advanceInternalLoop u v) := by
  obtain ⟨h1, h2, h3, h4, h5⟩ := hs
  have hb : 0 ≤ s.beta := by
    rw [h5]; exact mul_nonneg (by norm_num) (by linarith)
  have hq1 : |clip1 ((CQ.conj u * v).re)| ≤ 1 := clip1_abs_le_one _
  have key : |clip1 ((CQ.conj u * v).re) * s.beta + s.q_prime * s.alpha| ≤ 11/50 := by
    calc |clip1 ((CQ.conj u * v).re) * s.beta + s.q_prime * s.alpha|
        ≤ |clip1 ((CQ.conj u * v).re) * s.beta| + |s.q_prime * s.alpha| := abs_add _ _
      _ = |clip1 ((CQ.conj u * v).re)| * s.beta + |s.q_prime| * s.alpha := by
          rw [abs_mul, abs_mul, abs_of_nonneg hb, abs_of_nonneg h3]
      _ ≤ 1 * s.beta + (11/50) * s.alpha :=
          add_le_add (mul_le_mul_of_nonneg_right hq1 hb)
            (mul_le_mul_of_nonneg_right h2 h3)
      _ = 11/50 := by rw [h5]; ring
  exact ⟨key, key, h3, h4, h5⟩

/-- The emit loop body keeps the loop filter invariant. -/
theorem loopIter_LoopInv (t : LoopSt) (h : LoopInv t.st) : LoopInv (loopIter t).st := by
  unfold loopIter
  split_ifs with h1 h2
  · exact h
  · exact advance_LoopInv { t.st with decim_counter := 0 }
      (t.st.mf.execute t.st.b) (t.st.dmf.execute t.st.b) h
  · exact h

/-- One step call keeps the loop filter invariant. -/
theorem step_LoopInv (fuel : ℕ) (s : Symsync) (x : CQ) (r : StepRes)
    (h : Symsync.step fuel s x = some r) (hs : LoopInv s) : LoopInv r.st :=
  step_pres LoopInv (fun t _ hp => loopIter_LoopInv t hp)
    (fun _ _ hp => hp) (fun _ hp => hp) fuel s x r h hs

/-- Every public operation keeps the loop filter invariant; set_lf_bw
re-establishes it from its validated bandwidth and reset zeroes the
estimates. -/
theorem runOp_LoopInv (s s2 : Symsync) (op : SyncOp) (h : runOp s op = some s2)
    (hs : LoopInv s) : LoopInv s2 := by
  cases op with
  | step x fuel =>
    simp only [runOp] at h
    cases hst : Symsync.step fuel s x with
    | none => rw [hst] at h; exact Option.noConfusion h
    | some r =>
      rw [hst] at h; injection h with h2; subst h2
      exact step_LoopInv fuel s x r hst hs
  | execute xs fuel =>
    simp only [runOp] at h
    refine foldlM_pres LoopInv _ xs (fun s3 a s4 _ hfa hp => ?_) s s2 h hs
    cases hst : Symsync.step fuel s3 a with
    | none => rw [hst] at hfa; exact Option.noConfusion hfa
    | some r =>
      rw [hst] at hfa; injection hfa with h2; subst h2
      exact step_LoopInv fuel s3 a r hst hp
  | setOutputRate ko =>
    simp only [runOp, Symsync.setOutputRate] at h
    split_ifs at h
    injection h with h2; subst h2
    exact hs
  | setLfBw bt =>
    simp only [runOp, Symsync.setLfBw] at h
    split_ifs at h with hv
    injection h with h2
    subst h2
    push_neg at hv
    obtain ⟨hv1, hv2⟩ := hv
    refine ⟨hs.1, hs.2.1, ?_, ?_, ?_⟩
    · show (0 : ℚ) ≤ 1 - bt
      linarith
    · show (1 : ℚ) - bt ≤ 1
      linarith
    · show (11/50 : ℚ) * bt = 11/50 * (1 - (1 - bt))
      ring
  | lock =>
    simp only [runOp] at h; injection h with h2; subst h2; exact hs
  | unlock =>
    simp only [runOp] at h; injection h with h2; subst h2; exact hs
  | reset =>
    simp only [runOp] at h; injection h with h2; subst h2
    exact ⟨by norm_num [Symsync.reset], by norm_num [Symsync.reset],
      hs.2.2.1, hs.2.2.2.1, hs.2.2.2.2⟩

/-- Any sequence of public operations keeps the loop filter invariant. -/
theorem runOps_LoopInv (s s2 : Symsync) (ops : List SyncOp)
    (h : runOps s ops = some s2) (hs : LoopInv s) : LoopInv s2 :=
  foldlM_pres LoopInv runOp ops (fun s3 op s4 _ => runOp_LoopInv s3 s4 op) s s2 h hs

/-- The constructor establishes the loop filter invariant, with bandwidth
0.01. -/
theorem create_LoopInv (k npfb : ℕ) (h : List ℚ) (s : Symsync)
    (hc : Symsync.create k npfb h = some s) : LoopInv s := by
  unfold Symsync.create at hc
  split_ifs at hc
  injection hc with hc
  subst hc
  exact ⟨by norm_num, by norm_num, by norm_num, by norm_num, by norm_num⟩

/-- C10: in every state reachable from construction by valid public
operations (each set_lf_bw bandwidth validated into the unit interval), the
filtered and buffered timing error estimates have magnitude at most 0.22:
the clamp bounds the instantaneous error by one and the filter update with
alpha = 1 - bt, beta = 0.22 bt preserves the bound from the zero state. -/
theorem symsync_qhat_bounded (k npfb : ℕ) (h : List ℚ) (s0 s : Symsync)
    (ops : List SyncOp) (hc : Symsync.create k npfb h = some s0)
    (hr : runOps s0 ops = some s) :
    |s.q_hat| ≤ 11/50 ∧ |s.q_prime| ≤ 11/50 := by
  have hinv := runOps_LoopInv s0 s ops hr (create_LoopInv k npfb h s0 hc)
  exact ⟨hinv.1, hinv.2.1⟩

/-- C10 witness: the bound instantiated on a concrete run of one step from
the worked constructor state. -/
theorem symsync_qhat_bounded_w : |sQEx.q_hat| ≤ 11/50 ∧ |sQEx.q_prime| ≤ 11/50 :=
  symsync_qhat_bounded 2 1 hEx s0Ex sQEx opsStepEx (by with_unfolding_all rfl)
    (by with_unfolding_all rfl)

/-- The internal loop advance keeps the step size invariant: the new del is
k / k_out plus a filtered estimate of magnitude at most 0.22. -/
theorem advance_DelInv (s : Symsync) (u v : CQ) (hL : LoopInv s) (hD : DelInv s) :
    DelInv (s.advanceInternalLoop u v) := by
  obtain ⟨hk, hko, hbound, hdel⟩ := hD
  have h1 : |(s.advanceInternalLoop u v).q_hat| ≤ 11/50 := (advance_LoopInv s u v hL).1
  rw [abs_le] at h1
  refine ⟨hk, hko, hbound, ?_⟩
  show (s.k : ℚ) / (s.k_out : ℚ) - 11/50 ≤ (s.advanceInternalLoop u v).del
  have h2 : (s.advanceInternalLoop u v).del =
      (s.k : ℚ) / (s.k_out : ℚ) + (s.advanceInternalLoop u v).q_hat := rfl
  rw [h2]
  linarith [h1.1]

/-- The emit loop body keeps the combined invariant. -/
theorem loopIter_Inv (t : LoopSt) (h : LoopInv t.st ∧ DelInv t.st) :
    LoopInv (loopIter t).st ∧ DelInv (loopIter t).st := by
  refine ⟨loopIter_LoopInv t h.1, ?_⟩
  unfold loopIter
  split_ifs with h1 h2
  · exact h.2
  · exact advance_DelInv { t.st with decim_counter := 0 }
      (t.st.mf.execute t.st.b) (t.st.dmf.execute t.st.b) h.1 h.2
  · exact h.2

/-- One step call keeps the combined invariant together with the input
rate. -/
theorem step_Inv (kk fuel : ℕ) (s : Symsync) (x : CQ) (r : StepRes)
    (h : Symsync.step fuel s x = some r)
    (hs : s.k = kk ∧ LoopInv s ∧ DelInv s) :
    r.st.k = kk ∧ LoopInv r.st ∧ DelInv r.st :=
  step_pres (fun s2 => s2.k = kk ∧ LoopInv s2 ∧ DelInv s2)
    (fun t _ hp => ⟨(loopIter_frame t).2.1.trans hp.1, loopIter_Inv t hp.2⟩)
    (fun _ _ hp => hp) (fun _ hp => hp) fuel s x r h hs

/-- Every public operation whose output rate change is bounded keeps the
combined invariant together with the input rate. -/
theorem runOp_Inv (kk : ℕ) (s s2 : Symsync) (op : SyncOp)
    (hb : SyncOp.rateBounded kk op = true)
    (h : runOp s op = some s2)
    (hs : s.k = kk ∧ LoopInv s ∧ DelInv s) :
    s2.k = kk ∧ LoopInv s2 ∧ DelInv s2 := by
  cases op with
  | step x fuel =>
    simp only [runOp] at h
    cases hst : Symsync.step fuel s x with
    | none => rw [hst] at h; exact Option.noConfusion h
    | some r =>
      rw [hst] at h; injection h with h2; subst h2
      exact step_Inv kk fuel s x r hst hs
  | execute xs fuel =>
    simp only [runOp] at h
    refine foldlM_pres (fun s3 => s3.k = kk ∧ LoopInv s3 ∧ DelInv s3) _ xs
      (fun s3 a s4 _ hfa hp => ?_) s s2 h hs
    cases hst : Symsync.step fuel s3 a with
    | none => rw [hst] at hfa; exact Option.noConfusion hfa
    | some r =>
      rw [hst] at hfa; injection hfa with h2; subst h2
      exact step_Inv kk fuel s3 a r hst hp
  | setOutputRate ko =>
    simp only [runOp, Symsync.setOutputRate] at h
    split_ifs at h with hz
    injection h with h2
    subst h2
    have hkb : ko ≤ 4 * kk := of_decide_eq_true hb
    have hkk := hs.1
    have hL := hs.2.1
    obtain ⟨hk2, hko, hbound, hdel⟩ := hs.2.2
    refine ⟨hkk, hL, hk2, ?_, ?_, ?_⟩
    · show 1 ≤ ko
      omega
    · show ko ≤ 4 * s.k
      omega
    · show (s.k : ℚ) / (ko : ℚ) - 11/50 ≤ 1 / ((ko : ℚ) / (s.k : ℚ))
      rw [one_div_div]
      linarith
  | setLfBw bt =>
    have hL := runOp_LoopInv s s2 (SyncOp.setLfBw bt) h hs.2.1
    simp only [runOp, Symsync.setLfBw] at h
    split_ifs at h
    injection h with h2
    subst h2
    exact ⟨hs.1, hL, hs.2.2⟩
  | lock =>
    simp only [runOp] at h; injection h with h2; subst h2; exact hs
  | unlock =>
    simp only [runOp] at h; injection h with h2; subst h2; exact hs
  | reset =>
    simp only [runOp] at h; injection h with h2; subst h2
    exact ⟨hs.1, runOp_LoopInv s s.reset SyncOp.reset (by simp [runOp]) hs.2.1, hs.2.2⟩

/-- The constructor establishes the combined invariant: k at least 2, full
decimation k_out = 1, and del equal to k. -/
theorem create_Inv (k npfb : ℕ) (h : List ℚ) (s : Symsync)
    (hc : Symsync.create k npfb h = some s) :
    s.k = k ∧ LoopInv s ∧ DelInv s := by
  have hL := create_LoopInv k npfb h s hc
  unfold Symsync.create at hc
  split_ifs at hc with h1 h2 h3
  injection hc with hc
  subst hc
  refine ⟨rfl, hL, ?_, ?_, ?_, ?_⟩
  · show 2 ≤ k
    omega
  · show 1 ≤ 1
    exact le_refl 1
  · show 1 ≤ 4 * k
    omega
  · show (k : ℚ) / ((1 : ℕ) : ℚ) - 11/50 ≤ 1 / ((1 : ℚ) / (k : ℚ))
    rw [Nat.cast_one, div_one, one_div_one_div]
    linarith

/-- C3 corrected: del stays strictly positive in every state reachable from
construction by valid public operations, provided every set_output_rate
call keeps k_out at most 4 k; then k / k_out is at least 1/4, above the
0.22 bound on the filtered estimate, so every loop update
del = k / k_out + q_hat stays positive.  Without that bound del can reach
a negative value (see the reachable counterexample). -/
theorem symsync_del_pos_bounded_rate (k npfb : ℕ) (h : List ℚ) (s0 s : Symsync)
    (ops : List SyncOp) (hc : Symsync.create k npfb h = some s0)
    (hb : ∀ op ∈ ops, SyncOp.rateBounded k op = true)
    (hr : runOps s0 ops = some s) : 0 < s.del := by
  have hinv := foldlM_pres (fun s3 => s3.k = k ∧ LoopInv s3 ∧ DelInv s3) runOp ops
    (fun s3 op s4 hop hfa hp => runOp_Inv k s3 s4 op (hb op hop) hfa hp)
    s0 s hr (create_Inv k npfb h s0 hc)
  have hkk := hinv.1
  obtain ⟨hk2, hko, hbound, hdel⟩ := hinv.2.2
  have hkopos : (0 : ℚ) < (s.k_out : ℚ) := by
    exact_mod_cast Nat.pos_of_ne_zero (by omega)
  have hq : (1 : ℚ) / 4 ≤ (s.k : ℚ) / (s.k_out : ℚ) := by
    rw [div_le_div_iff (by norm_num) hkopos]
    have hcast : (s.k_out : ℚ) ≤ 4 * (s.k : ℚ) := by exact_mod_cast hbound
    linarith
  linarith

/-- C3 witness: after a bounded output rate change to k_out = 2 and one
step, del is positive on the worked example. -/
theorem symsync_del_pos_bounded_rate_w : 0 < sRateEx.del :=
  symsync_del_pos_bounded_rate 2 1 hEx s0Ex sRateEx opsRateEx
    (by with_unfolding_all rfl) (by decide) (by with_unfolding_all rfl)

/-- C6: while the lock flag is set, any number of step calls on arbitrary
samples leaves the instantaneous error, the filtered and buffered
estimates and the step size del exactly unchanged, and the lock stays set;
outputs are still emitted with the frozen del. -/
theorem symsync_lock_freezes_loop (s s2 : Symsync) (ops : List SyncOp)
    (hl : s.is_locked = true)
    (hsteps : ∀ op ∈ ops, ∃ x fuel, op = SyncOp.step x fuel)
    (hr : runOps s ops = some s2) :
    s2.q = s.q ∧ s2.q_hat = s.q_hat ∧ s2.q_prime = s.q_prime ∧ s2.del = s.del ∧
      s2.is_locked = true := by
  refine foldlM_pres
    (fun s3 => s3.q = s.q ∧ s3.q_hat = s.q_hat ∧ s3.q_prime = s.q_prime ∧
      s3.del = s.del ∧ s3.is_locked = true)
    runOp ops (fun s3 op s4 hop hfa hp => ?_) s s2 hr ⟨rfl, rfl, rfl, rfl, hl⟩
  obtain ⟨x, fuel, rfl⟩ := hsteps op hop
  simp only [runOp] at hfa
  cases hst : Symsync.step fuel s3 x with
  | none => rw [hst] at hfa; exact Option.noConfusion hfa
  | some r =>
    rw [hst] at hfa
    injection hfa with h2
    subst h2
    refine step_pres
      (fun s5 => s5.q = s.q ∧ s5.q_hat = s.q_hat ∧ s5.q_prime = s.q_prime ∧
        s5.del = s.del ∧ s5.is_locked = true)
      (fun t hg hp2 => ?_) (fun _ _ hp2 => hp2) (fun _ hp2 => hp2) fuel s3 x r hst hp
    have hfr := loopIter_frame t
    have hlk := loopIter_locked t hp2.2.2.2.2
    exact ⟨hlk.1.trans hp2.1, hlk.2.1.trans hp2.2.1, hlk.2.2.1.trans hp2.2.2.1,
      hlk.2.2.2.trans hp2.2.2.2.1, hfr.2.2.2.1.trans hp2.2.2.2.2⟩

/-- C6 witness: the freeze equations instantiated on a locked run of one
step from the worked constructor state. -/
theorem symsync_lock_freezes_loop_w :
    sLockEx.q = sLock0Ex.q ∧ sLockEx.q_hat = sLock0Ex.q_hat ∧
      sLockEx.q_prime = sLock0Ex.q_prime ∧ sLockEx.del = sLock0Ex.del ∧
      sLockEx.is_locked = true :=
  symsync_lock_freezes_loop sLock0Ex sLockEx opsStepEx rfl
    (by
      intro op hop
      simp only [opsStepEx, List.mem_singleton] at hop
      exact ⟨⟨1, 0⟩, 5, hop⟩)
    (by with_unfolding_all rfl)

/-- Pointwise value of the derivative prototype list. -/
theorem dhCoeffs_getD (npfb : ℕ) (h : List ℚ) (i : ℕ) (hi : i < h.length) :
    (dhCoeffs npfb h).getD i 0 =
      (if i = 0 then h.getD 1 0 - h.getD (h.length - 1) 0
       else if i = h.length - 1 then h.getD 0 0 - h.getD (i - 1) 0
       else h.getD (i + 1) 0 - h.getD (i - 1) 0) * ((npfb : ℚ) / 16) := by
  simp [dhCoeffs, List.getD_eq_getElem?_getD, List.getElem?_map, List.getElem?_range, hi]

/-- C7: after a successful create on a prototype of length M at least 2,
the derivative bank prototype has length M and its taps are the centered
differences with circular boundaries scaled by N / 16: tap 0 is
(h[1] - h[M-1]) N / 16, tap M-1 is (h[0] - h[M-2]) N / 16, and every
interior tap i is (h[i+1] - h[i-1]) N / 16. -/
theorem symsync_derivative_coeffs (k npfb : ℕ) (h : List ℚ) (s : Symsync)
    (hc : Symsync.create k npfb h = some s) (hM : 2 ≤ h.length)
    (i : ℕ) (hi : i < h.length) :
    s.dmf.h.length = h.length ∧
    s.dmf.h.getD i 0 =
      (if i = 0 then (h.getD 1 0 - h.getD (h.length - 1) 0) * (npfb : ℚ) / 16
       else if i = h.length - 1 then
         (h.getD 0 0 - h.getD (h.length - 2) 0) * (npfb : ℚ) / 16
       else (h.getD (i + 1) 0 - h.getD (i - 1) 0) * (npfb : ℚ) / 16) := by
  unfold Symsync.create at hc
  split_ifs at hc with h1 h2 h3
  injection hc with hc
  subst hc
  constructor
  · show (Firpfb.create npfb (dhCoeffs npfb h)).h.length = h.length
    simp [Firpfb.create, dhCoeffs]
  · show (dhCoeffs npfb h).getD i 0 = _
    rw [dhCoeffs_getD npfb h i hi]
    by_cases hz : i = 0
    · subst hz
      rw [if_pos rfl, if_pos rfl]
      ring
    · rw [if_neg hz, if_neg hz]
      by_cases hl : i = h.length - 1
      · rw [if_pos hl, if_pos hl, hl]
        have he : h.length - 1 - 1 = h.length - 2 := by omega
        rw [he]
        ring
      · rw [if_neg hl, if_neg hl]
        ring

/-- C7 witness: the boundary tap formula instantiated at index 0 on the
worked prototype. -/
theorem symsync_derivative_coeffs_w :
    s0Ex.dmf.h.length = hEx.length ∧
    s0Ex.dmf.h.getD 0 0 =
      (if 0 = 0 then (hEx.getD 1 0 - hEx.getD (hEx.length - 1) 0) * ((1 : ℕ) : ℚ) / 16
       else if 0 = hEx.length - 1 then
         (hEx.getD 0 0 - hEx.getD (hEx.length - 2) 0) * ((1 : ℕ) : ℚ) / 16
       else (hEx.getD (0 + 1) 0 - hEx.getD (0 - 1) 0) * ((1 : ℕ) : ℚ) / 16) :=
  symsync_derivative_coeffs 2 1 hEx s0Ex (by with_unfolding_all rfl) (by decide)
    0 (by decide)

/-- C9 witness: the sub-filter length formula instantiated on the worked
constructor call, where the length (3 - 1) / 1 = 2 is positive. -/
theorem symsync_hlen_formula_w :
    s0Ex.h_len = (hEx.length - 1) / 1 ∧ (1 < hEx.length → 0 < s0Ex.h_len) :=
  symsync_hlen_formula 2 1 hEx s0Ex (by with_unfolding_all rfl)
